import Mathlib

/-! Shallow embedding of the core of `minecraft_gui.py` (Minecraft Cache Warmer):
file enumeration (`iter_files`), the chunked read loop (`warm_file`), the
priority sort used by the warm worker (`weight` / `rank`), instance listing
(`list_instances`), and the warm worker session loop (`worker`).

Paths are modelled as their list of path segments (Python `p.parts`); the
filesystem visible to enumeration is modelled by the record `FS` of the
predicates the code consults (`is_file`, `exists`, `resolve`, and whether
touching the path raises an `OSError`, which the loop body swallows). -/

namespace MCW

/-- Skip-directory names, from `SKIP_DIRNAMES` in the source (a Python set,
modelled as the list of its elements). -/
def SKIP_DIRNAMES : List String :=
  [".git", ".gradle", ".idea", "logs", "crash-reports", "screenshots", "shaderpacks"]

/-- A path is its sequence of segments, as in Python `Path.parts`. -/
abbrev RawPath := List String

/-- The filesystem facts `iter_files` consults about a candidate path. -/
structure FS where
  isFile : RawPath → Bool
  fileExists : RawPath → Bool
  resolve : RawPath → RawPath
  readErr : RawPath → Bool

/-- Dedup key of a match: `p.resolve() if p.exists() else p` (source line 44). -/
def keyOf (fs : FS) (p : RawPath) : RawPath :=
  if fs.fileExists p then fs.resolve p else p

/-- Test from source line 48: `any(part in SKIP_DIRNAMES for part in p.parts)`. -/
def isSkip (p : RawPath) : Bool :=
  p.any fun part => decide (part ∈ SKIP_DIRNAMES)

/-- State of the enumeration loop: the `seen` key set and the paths yielded
so far (in order). -/
structure IterState where
  seen : List RawPath
  out : List RawPath

/-- One iteration of the loop body of `iter_files` (source lines 41-52) on one
match `p`: swallow errors, skip non-files, dedup on `keyOf`, record the key,
then suppress paths under a skip directory, else yield. -/
def iterStep (fs : FS) (st : IterState) (p : RawPath) : IterState :=
  if fs.readErr p then st
  else if !fs.isFile p then st
  else if keyOf fs p ∈ st.seen then st
  else if isSkip p then { st with seen := keyOf fs p :: st.seen }
  else { seen := keyOf fs p :: st.seen, out := st.out ++ [p] }

/-- Run the enumeration loop over a list of matches from a given state. -/
def runIter (fs : FS) (l : List RawPath) (st : IterState) : IterState :=
  l.foldl (iterStep fs) st

/-- Embedding of `iter_files(root, patterns)`: `matches` holds, per pattern,
the list of paths produced by `root.rglob(pattern)` in order; the generator
yields the `out` component. -/
def iter_files (fs : FS) (matchLists : List (List RawPath)) : List RawPath :=
  (runIter fs matchLists.flatten ⟨[], []⟩).out

/-- Chunk size of `warm_file`: `max(1, int(chunk_mb * 1024 * 1024))`
(source line 66), as a byte count. -/
def chunkBytes (chunk_mb : Int) : Nat :=
  (max 1 (chunk_mb * 1024 * 1024)).toNat

/-- The read loop of `warm_file` (source lines 67-71): each `f.read(chunk)`
returns `min chunk remaining` bytes of the remaining content; the loop stops
on an empty read and accumulates the byte count. -/
def readLoop (chunk remaining total : Nat) : Nat :=
  if min chunk remaining = 0 then total
  else readLoop chunk (remaining - min chunk remaining) (total + min chunk remaining)
termination_by remaining
decreasing_by omega

/-- Embedding of `warm_file(path, chunk_mb)`: `statSize` is the stat-reported
size (source line 63, computed and never used), `content` the number of bytes
actually readable from the file. Returns the total bytes read. -/
def warm_file (statSize : Nat) (content : Nat) (chunk_mb : Int) : Nat :=
  readLoop (chunkBytes chunk_mb) content 0

/-- A candidate file as the priority sort sees it: final path component
(Python `p.name`) and stat size. -/
structure FileRec where
  name : String
  size : Nat
deriving DecidableEq

/-- Lower-cased characters of a string: Python `name.lower()` on the
character sequence. -/
def lowerData (s : String) : List Char :=
  s.data.map Char.toLower

/-- Python `d.endswith(suff)` on a character sequence. -/
def pyEndsWith (d : List Char) (suff : String) : Bool :=
  suff.data.isSuffixOf d

/-- The priority class of a file, from `weight` in the source
(lines 467-477): `.jar` = 0, `.zip` = 1, config-like = 2, media = 3,
everything else = 4, decided case-insensitively on the file name. -/
def weight (p : FileRec) : Nat :=
  let name := lowerData p.name
  if pyEndsWith name ".jar" then 0
  else if pyEndsWith name ".zip" then 1
  else if pyEndsWith name ".json" || pyEndsWith name ".toml" ||
      pyEndsWith name ".cfg" || pyEndsWith name ".ini" then 2
  else if pyEndsWith name ".png" || pyEndsWith name ".ogg" ||
      pyEndsWith name ".wav" then 3
  else 4

/-- The sort key order of `files.sort(key=lambda p: (weight(p), -p.stat().st_size))`
(source line 479): ascending class, then descending size. -/
abbrev RankLE (a b : FileRec) : Prop :=
  weight a < weight b ∨ (weight a = weight b ∧ b.size ≤ a.size)

/-- The ranking performed by the worker: Python `list.sort` is the (unique)
stable ascending sort by the key, rendered as insertion sort on `RankLE`. -/
def rank (l : List FileRec) : List FileRec :=
  List.insertionSort RankLE l

/-- An immediate child entry of a root directory, as `list_instances` sees it:
its name, whether it is a directory, and which sub-entry names exist in it. -/
structure DirEntry where
  name : String
  isDir : Bool
  hasSub : String → Bool

/-- Marker sub-entries recognized by `list_instances` (source line 146). -/
def MARKERS : List String :=
  ["mods", "config", "resourcepacks", ".minecraft"]

/-- Heuristic of source line 146: the child directly contains at least one
marker sub-entry. -/
def looksLikeInstance (c : DirEntry) : Bool :=
  MARKERS.any c.hasSub

/-- Name order used by `sorted(root_dir.iterdir())` restricted to children of
one directory: lexicographic comparison of the names. -/
abbrev nameLE (a b : DirEntry) : Prop :=
  a.name ≤ b.name

/-- Embedding of `list_instances(root_dir)` (source lines 139-151): `none`
models `root_dir.iterdir()` raising (the `except` returns the empty list
built so far); otherwise the sorted children are filtered by `is_dir` and the
marker heuristic. -/
def list_instances (listing : Option (List DirEntry)) : List DirEntry :=
  match listing with
  | none => []
  | some children =>
      (List.insertionSort nameLE children).filter fun c =>
        c.isDir && looksLikeInstance c

/-- Outcome of one candidate file inside the worker loop: its stat size
(source line 487) and the result of `warm_file` — `some rb` for a normal
return of `rb` bytes, `none` when the read raises (source lines 494-501). -/
structure FileEntry where
  size : Nat
  result : Option Nat
deriving DecidableEq

/-- Log events the worker emits, one constructor per `_append_log` call of
the session loop (source lines 464-508). -/
inductive Event where
  | startTarget
  | planned (idx : Nat) (size : Nat)
  | limitHit
  | warmedFile (idx : Nat) (rb : Nat) (total : Nat)
  | fileError (idx : Nat)
  | doneTarget (warmed : Nat)
  | summary (total : Nat)
deriving DecidableEq

/-- State of the worker: cumulative `warmed_total`, per-target `warmed`, the
log, the pre-open totals recorded at each `warm_file` call (`opens`, one entry
per file actually opened), and the count of reads of the cancellation flag
(`checks`, giving each check its time index). -/
structure WorkerState where
  warmedTotal : Nat
  warmed : Nat
  events : List Event
  opens : List Nat
  checks : Nat

/-- Initial worker state (`warmed_total = 0`, empty log). -/
def initState : WorkerState :=
  ⟨0, 0, [], [], 0⟩

/-- Per-file loop of the worker (source lines 482-503) over the ranked file
list of one target, with 1-based display index `i`: check the cancellation
flag, then dry-run planning, then the budget gate, then `warm_file` with its
error handler. `flag n` is the value of `self._stop_flag` at the n-th check.
This is the infallible-stat restriction: `FileEntry.size` assumes the
`fpath.stat()` of line 487 succeeds; the faithful loop with the fallible
stat is `fileLoopS` below, and `fileLoopS_ok_of_stats` proves this function
is exactly its restriction to executions in which no stat raises. -/
def fileLoop (dry : Bool) (budget : Nat) (flag : Nat → Bool) :
    List FileEntry → Nat → WorkerState → WorkerState
  | [], _, st => st
  | e :: rest, i, st =>
    if flag st.checks then
      { st with checks := st.checks + 1 }
    else if dry then
      fileLoop dry budget flag rest (i + 1)
        { st with checks := st.checks + 1,
                  events := st.events ++ [Event.planned i e.size] }
    else if budget ≤ st.warmedTotal then
      { st with checks := st.checks + 1,
                events := st.events ++ [Event.limitHit] }
    else
      match e.result with
      | some rb =>
          fileLoop dry budget flag rest (i + 1)
            { st with checks := st.checks + 1,
                      warmedTotal := st.warmedTotal + rb,
                      warmed := st.warmed + rb,
                      opens := st.opens ++ [st.warmedTotal],
                      events := st.events ++ [Event.warmedFile i rb (st.warmedTotal + rb)] }
      | none =>
          fileLoop dry budget flag rest (i + 1)
            { st with checks := st.checks + 1,
                      opens := st.opens ++ [st.warmedTotal],
                      events := st.events ++ [Event.fileError i] }

/-- Per-target loop of the worker (source lines 460-505): check the
cancellation flag before each target, log the start, run the per-file loop
with the per-target counter reset, log the per-target summary. Each element
of `targets` is the ranked candidate list of one target. -/
def targetsLoop (dry : Bool) (budget : Nat) (flag : Nat → Bool) :
    List (List FileEntry) → WorkerState → WorkerState
  | [], st => st
  | files :: rest, st =>
    if flag st.checks then
      { st with checks := st.checks + 1 }
    else
      targetsLoop dry budget flag rest
        (let st1 := fileLoop dry budget flag files 1
          { st with checks := st.checks + 1,
                    warmed := 0,
                    events := st.events ++ [Event.startTarget] }
        { st1 with events := st1.events ++ [Event.doneTarget st1.warmed] })

/-- The warm session in the infallible-stat restriction (every
`fpath.stat()` of line 487 succeeds): run all targets, then log the
end-of-session summary with the cumulative total (source lines 444-510).
The faithful session including the fallible stat is `workerS` below;
`workerS_ok_of_stats` proves this function is exactly its restriction to
executions in which no stat raises. -/
def worker (dry : Bool) (budget : Nat) (flag : Nat → Bool)
    (targets : List (List FileEntry)) (st : WorkerState) : WorkerState :=
  let st1 := targetsLoop dry budget flag targets st
  { st1 with events := st1.events ++ [Event.summary st1.warmedTotal] }

/-- A candidate file as the faithful per-file loop sees it: `stat` is the
outcome of `fpath.stat().st_size` at source line 487 (`none` when `stat`
raises, for example because the file vanished between enumeration and
warming), and `result` the outcome of `warm_file` as in `FileEntry`. -/
structure FileCand where
  stat : Option Nat
  result : Option Nat
deriving DecidableEq

/-- Restriction of a candidate to the infallible-stat model. -/
def toEntry (c : FileCand) : FileEntry :=
  ⟨c.stat.getD 0, c.result⟩

/-- Faithful per-file loop of the worker (source lines 482-503), with the
fallible `fpath.stat()` of line 487 modelled: the stat runs after the
cancellation check and before the dry-run branch, and it sits outside the
`try` of line 494 — which guards only the `warm_file` call — while the
worker-level `try` of line 445 has only a `finally`; so a raising stat
propagates out of the loop (`Except.error`, carrying the log as emitted so
far) instead of being caught. -/
def fileLoopS (dry : Bool) (budget : Nat) (flag : Nat → Bool) :
    List FileCand → Nat → WorkerState → Except WorkerState WorkerState
  | [], _, st => Except.ok st
  | c :: rest, i, st =>
    if flag st.checks then
      Except.ok { st with checks := st.checks + 1 }
    else
      match c.stat with
      | none => Except.error { st with checks := st.checks + 1 }
      | some size =>
        if dry then
          fileLoopS dry budget flag rest (i + 1)
            { st with checks := st.checks + 1,
                      events := st.events ++ [Event.planned i size] }
        else if budget ≤ st.warmedTotal then
          Except.ok { st with checks := st.checks + 1,
                              events := st.events ++ [Event.limitHit] }
        else
          match c.result with
          | some rb =>
              fileLoopS dry budget flag rest (i + 1)
                { st with checks := st.checks + 1,
                          warmedTotal := st.warmedTotal + rb,
                          warmed := st.warmed + rb,
                          opens := st.opens ++ [st.warmedTotal],
                          events := st.events ++ [Event.warmedFile i rb (st.warmedTotal + rb)] }
          | none =>
              fileLoopS dry budget flag rest (i + 1)
                { st with checks := st.checks + 1,
                          opens := st.opens ++ [st.warmedTotal],
                          events := st.events ++ [Event.fileError i] }

/-- Faithful per-target loop (source lines 460-505): an uncaught per-file
failure propagates out of the target loop as well, skipping the per-target
summary of line 505 and all remaining targets. -/
def targetsLoopS (dry : Bool) (budget : Nat) (flag : Nat → Bool) :
    List (List FileCand) → WorkerState → Except WorkerState WorkerState
  | [], st => Except.ok st
  | files :: rest, st =>
    if flag st.checks then
      Except.ok { st with checks := st.checks + 1 }
    else
      match fileLoopS dry budget flag files 1
          { st with checks := st.checks + 1, warmed := 0,
                    events := st.events ++ [Event.startTarget] } with
      | Except.error st1 => Except.error st1
      | Except.ok st1 =>
          targetsLoopS dry budget flag rest
            { st1 with events := st1.events ++ [Event.doneTarget st1.warmed] }

/-- The faithful whole session: the end-of-session summary of line 508 runs
only when no uncaught exception escaped the loops; an `Except.error` result
is the worker thread dying with the log it had emitted so far. -/
def workerS (dry : Bool) (budget : Nat) (flag : Nat → Bool)
    (targets : List (List FileCand)) (st : WorkerState) :
    Except WorkerState WorkerState :=
  match targetsLoopS dry budget flag targets st with
  | Except.error st1 => Except.error st1
  | Except.ok st1 =>
      Except.ok { st1 with events := st1.events ++ [Event.summary st1.warmedTotal] }

/-- Invariant of the enumeration loop: every yielded path is a regular file,
has its dedup key recorded in `seen`, is not under a skip directory, and the
dedup keys of distinct yields are distinct. -/
def GoodInv (fs : FS) (st : IterState) : Prop :=
  (∀ q ∈ st.out, fs.isFile q = true ∧ keyOf fs q ∈ st.seen ∧ isSkip q = false)
  ∧ st.out.Pairwise fun a b => keyOf fs a ≠ keyOf fs b

/-- Invariant used for the alias-suppression argument: once a key `k` is in
`seen`, no path yielded from then on resolves to `k`. -/
def AvoidKey (fs : FS) (k : RawPath) (st : IterState) : Prop :=
  k ∈ st.seen ∧ ∀ q ∈ st.out, fs.fileExists q = true → fs.resolve q ≠ k

/-- A fully regular filesystem view (everything is an existing regular file,
resolution is the identity, nothing raises); concrete input for checks. -/
def fsAll : FS :=
  ⟨fun _ => true, fun _ => true, id, fun _ => false⟩

/-- A filesystem view on which every path resolves to the single file `["R"]`;
concrete input for checks. -/
def fsRes : FS :=
  ⟨fun _ => true, fun _ => true, fun _ => ["R"], fun _ => false⟩

/-- A concrete candidate list: a large media file listed before a small
archive, exercising class-before-size ordering and case-insensitivity. -/
def rankW : List FileRec :=
  [⟨"big.PNG", 100⟩, ⟨"Small.Jar", 1⟩]

instance : DecidableEq IterState := fun a b =>
  decidable_of_iff (a.seen = b.seen ∧ a.out = b.out)
    (by cases a; cases b; simp)

instance : IsTotal FileRec RankLE :=
  ⟨fun a b => by dsimp only [RankLE]; omega⟩

instance : IsTrans FileRec RankLE :=
  ⟨fun a b c hab hbc => by dsimp only [RankLE] at *; omega⟩

instance : IsTotal DirEntry nameLE :=
  ⟨fun a b => le_total a.name b.name⟩

instance : IsTrans DirEntry nameLE :=
  ⟨fun a b c hab hbc => le_trans hab hbc⟩

lemma readLoop_eq (chunk : Nat) (hc : 1 ≤ chunk) :
    ∀ remaining total, readLoop chunk remaining total = total + remaining := by
  intro remaining
  induction remaining using Nat.strong_induction_on with
  | _ r ih =>
    intro total
    rw [readLoop]
    split
    · omega
    · rename_i h
      rw [ih (r - min chunk r) (by omega)]
      omega

/-- Claim C9: for every `chunk_mb` argument, including zero and negative
values, `warm_file` clamps the chunk size to at least 1 byte, its read loop
terminates on every finite file (it is a total function here, defined by
well-founded recursion on the remaining bytes), and the returned value equals
the total number of bytes actually read — the full content length at read
time — independently of the stat-reported size. -/
theorem spec_C9 (statSize statSize' content : Nat) (chunk_mb : Int) :
    1 ≤ chunkBytes chunk_mb
    ∧ warm_file statSize content chunk_mb = content
    ∧ warm_file statSize content chunk_mb = warm_file statSize' content chunk_mb := by
  have hc : 1 ≤ chunkBytes chunk_mb := by
    unfold chunkBytes
    have := le_max_left (1 : Int) (chunk_mb * 1024 * 1024)
    omega
  refine ⟨hc, ?_, rfl⟩
  unfold warm_file
  rw [readLoop_eq _ hc]
  omega

/-- Claim C8: for every root directory, `list_instances` returns exactly the
immediate child entries that are directories and directly contain at least
one recognized marker sub-entry (`mods`, `config`, `resourcepacks`,
`.minecraft`), ordered lexicographically by name (stated as: the result is a
permutation of the filtered children, sorted by name, with membership
characterized exactly); and if reading the root directory itself fails, the
whole call returns the empty list instead of raising. -/
theorem spec_C8 :
    list_instances none = []
    ∧ ∀ children : List DirEntry,
        (list_instances (some children)).Perm
          (children.filter fun c => c.isDir && looksLikeInstance c)
        ∧ (list_instances (some children)).Pairwise nameLE
        ∧ ∀ x, x ∈ list_instances (some children) ↔
            x ∈ children ∧ x.isDir = true ∧ looksLikeInstance x = true := by
  refine ⟨rfl, fun children => ⟨?_, ?_, ?_⟩⟩
  · exact List.Perm.filter _ (List.perm_insertionSort nameLE children)
  · exact List.Pairwise.sublist (List.filter_sublist _)
      (List.sorted_insertionSort nameLE children)
  · intro x
    show x ∈ (List.insertionSort nameLE children).filter _ ↔ _
    rw [List.mem_filter, List.mem_insertionSort]
    simp [and_assoc]

lemma isSkip_eq_false_iff (p : RawPath) :
    isSkip p = false ↔ ∀ part ∈ p, part ∉ SKIP_DIRNAMES := by
  simp [isSkip]

lemma iterStep_seen_sub (fs : FS) (st : IterState) (p : RawPath) :
    st.seen ⊆ (iterStep fs st p).seen := by
  unfold iterStep
  repeat' split
  all_goals intro x hx
  all_goals first
    | exact hx
    | exact List.mem_cons_of_mem _ hx

lemma runIter_seen_sub (fs : FS) (l : List RawPath) :
    ∀ st : IterState, st.seen ⊆ (runIter fs l st).seen := by
  induction l with
  | nil => intro st; exact fun x hx => hx
  | cons p l ih =>
    intro st
    exact (iterStep_seen_sub fs st p).trans (ih (iterStep fs st p))

lemma iterStep_out_sub (fs : FS) (st : IterState) (p : RawPath) :
    ∀ q ∈ (iterStep fs st p).out, q ∈ st.out ∨ q = p := by
  unfold iterStep
  repeat' split
  all_goals intro q hq
  all_goals first
    | exact Or.inl hq
    | · rcases List.mem_append.mp hq with h | h
        · exact Or.inl h
        · exact Or.inr (List.mem_singleton.mp h)

lemma runIter_out_sub (fs : FS) (l : List RawPath) :
    ∀ (st : IterState) (q : RawPath), q ∈ (runIter fs l st).out → q ∈ st.out ∨ q ∈ l := by
  induction l with
  | nil => intro st q hq; exact Or.inl hq
  | cons p l ih =>
    intro st q hq
    rcases ih (iterStep fs st p) q hq with h | h
    · rcases iterStep_out_sub fs st p q h with h2 | h2
      · exact Or.inl h2
      · exact Or.inr (h2 ▸ List.mem_cons_self p l)
    · exact Or.inr (List.mem_cons_of_mem p h)

lemma iterStep_seen_from (fs : FS) (st : IterState) (p : RawPath) :
    ∀ x ∈ (iterStep fs st p).seen, x ∈ st.seen ∨ x = keyOf fs p := by
  unfold iterStep
  repeat' split
  all_goals intro x hx
  all_goals first
    | exact Or.inl hx
    | · rcases List.mem_cons.mp hx with h | h
        · exact Or.inr h
        · exact Or.inl h

lemma runIter_seen_from (fs : FS) (l : List RawPath) :
    ∀ (st : IterState) (x : RawPath),
      x ∈ (runIter fs l st).seen → x ∈ st.seen ∨ ∃ q ∈ l, x = keyOf fs q := by
  induction l with
  | nil => intro st x hx; exact Or.inl hx
  | cons p l ih =>
    intro st x hx
    rcases ih (iterStep fs st p) x hx with h | ⟨q, hq, hkey⟩
    · rcases iterStep_seen_from fs st p x h with h2 | h2
      · exact Or.inl h2
      · exact Or.inr ⟨p, List.mem_cons_self p l, h2⟩
    · exact Or.inr ⟨q, List.mem_cons_of_mem p hq, hkey⟩

lemma iterStep_inv (fs : FS) (st : IterState) (p : RawPath)
    (h : GoodInv fs st) : GoodInv fs (iterStep fs st p) := by
  obtain ⟨hmem, hpw⟩ := h
  unfold iterStep
  split
  · exact ⟨hmem, hpw⟩
  split
  · exact ⟨hmem, hpw⟩
  split
  · exact ⟨hmem, hpw⟩
  split
  · refine ⟨fun q hq => ?_, hpw⟩
    obtain ⟨h1, h2, h3⟩ := hmem q hq
    exact ⟨h1, List.mem_cons_of_mem _ h2, h3⟩
  · rename_i herr hfile hkey hskip
    constructor
    · intro q hq
      rcases List.mem_append.mp hq with h | h
      · obtain ⟨h1, h2, h3⟩ := hmem q h
        exact ⟨h1, List.mem_cons_of_mem _ h2, h3⟩
      · rw [List.mem_singleton.mp h]
        refine ⟨?_, List.mem_cons_self _ _, ?_⟩
        · revert hfile
          cases fs.isFile p <;> simp
        · revert hskip
          cases hs : isSkip p <;> simp
    · rw [List.pairwise_append]
      refine ⟨hpw, List.pairwise_singleton _ _, ?_⟩
      intro a ha b hb
      rw [List.mem_singleton.mp hb]
      intro hEq
      exact hkey (hEq ▸ (hmem a ha).2.1)

lemma runIter_inv (fs : FS) (l : List RawPath) :
    ∀ st : IterState, GoodInv fs st → GoodInv fs (runIter fs l st) := by
  induction l with
  | nil => intro st h; exact h
  | cons p l ih =>
    intro st h
    exact ih (iterStep fs st p) (iterStep_inv fs st p h)

/-- Claim C3: for every filesystem view and every sequence of per-pattern
match lists, `iter_files` yields no path any of whose segments is a
skip-directory name, and never yields two paths with the same resolved
identity in one call. The hypothesis `hstatic` states the race-free
filesystem coherence (a path that is a regular file exists), under which the
dedup key of every yielded path is its resolved path. -/
theorem spec_C3 (fs : FS) (matchLists : List (List RawPath))
    (hstatic : ∀ p, fs.isFile p = true → fs.fileExists p = true) :
    (∀ p ∈ iter_files fs matchLists, ∀ part ∈ p, part ∉ SKIP_DIRNAMES)
    ∧ (iter_files fs matchLists).Pairwise fun p q => fs.resolve p ≠ fs.resolve q := by
  have hinv : GoodInv fs (runIter fs matchLists.flatten ⟨[], []⟩) :=
    runIter_inv fs matchLists.flatten ⟨[], []⟩
      ⟨fun q hq => absurd hq (List.not_mem_nil q), List.Pairwise.nil⟩
  constructor
  · intro p hp part hpart
    exact (isSkip_eq_false_iff p).mp (hinv.1 p hp).2.2 part hpart
  · refine hinv.2.imp_of_mem ?_
    intro a b ha hb hne
    have hka : keyOf fs a = fs.resolve a := by
      unfold keyOf
      rw [hstatic a (hinv.1 a ha).1]
      simp
    have hkb : keyOf fs b = fs.resolve b := by
      unfold keyOf
      rw [hstatic b (hinv.1 b hb).1]
      simp
    rw [hka, hkb] at hne
    exact hne

/-- Witness for C3 at a concrete filesystem and match list: the second match
lies under the skip directory `logs` and the third is a duplicate of the
first. -/
theorem spec_C3_witness :
    (∀ p ∈ iter_files fsAll [[["mods", "a.jar"], ["logs", "x.txt"], ["mods", "a.jar"]]],
        ∀ part ∈ p, part ∉ SKIP_DIRNAMES)
    ∧ (iter_files fsAll [[["mods", "a.jar"], ["logs", "x.txt"], ["mods", "a.jar"]]]).Pairwise
        fun p q => fsAll.resolve p ≠ fsAll.resolve q :=
  spec_C3 fsAll [[["mods", "a.jar"], ["logs", "x.txt"], ["mods", "a.jar"]]]
    (fun _ _ => rfl)

lemma iterStep_avoid (fs : FS) (k : RawPath) (st : IterState) (p : RawPath)
    (h : AvoidKey fs k st) : AvoidKey fs k (iterStep fs st p) := by
  obtain ⟨hk, hout⟩ := h
  unfold iterStep
  split
  · exact ⟨hk, hout⟩
  split
  · exact ⟨hk, hout⟩
  split
  · exact ⟨hk, hout⟩
  split
  · exact ⟨List.mem_cons_of_mem _ hk, hout⟩
  · rename_i herr hfile hkeymem hskip
    refine ⟨List.mem_cons_of_mem _ hk, ?_⟩
    intro q hq hqex
    rcases List.mem_append.mp hq with hold | hnew
    · exact hout q hold hqex
    · rw [List.mem_singleton.mp hnew] at hqex ⊢
      have hkey : keyOf fs p = fs.resolve p := by
        unfold keyOf
        rw [hqex]
        simp
      exact fun hEq => hkeymem (by rw [hkey, hEq]; exact hk)

lemma runIter_avoid (fs : FS) (k : RawPath) (l : List RawPath) :
    ∀ st : IterState, AvoidKey fs k st → AvoidKey fs k (runIter fs l st) := by
  induction l with
  | nil => intro st h; exact h
  | cons p l ih =>
    intro st h
    exact ih (iterStep fs st p) (iterStep_avoid fs k st p h)

/-- Claim C10: in `iter_files` the dedup key of a match is added to the seen
set before the skip-directory test, so when a match `p` under a skip
directory is the first match whose key is the resolved identity `resolve p`
(hypothesis `hfirst`: no earlier match carries that key), no later match by
any pattern that resolves to the same file is ever yielded in that call:
every yielded path that exists resolves to something other than `resolve p`. -/
theorem spec_C10 (fs : FS) (l1 l2 : List RawPath) (p : RawPath)
    (matchLists : List (List RawPath))
    (hjoin : matchLists.flatten = l1 ++ p :: l2)
    (herr : fs.readErr p = false) (hfile : fs.isFile p = true)
    (hex : fs.fileExists p = true) (hskip : isSkip p = true)
    (hfirst : ∀ q ∈ l1, keyOf fs q ≠ fs.resolve p) :
    ∀ q ∈ iter_files fs matchLists,
      fs.fileExists q = true → fs.resolve q ≠ fs.resolve p := by
  have hsplit : runIter fs matchLists.flatten ⟨[], []⟩
      = runIter fs l2 (iterStep fs (runIter fs l1 ⟨[], []⟩) p) := by
    rw [hjoin]
    simp [runIter, List.foldl_append]
  set st1 := runIter fs l1 (⟨[], []⟩ : IterState) with hst1
  have hkeyp : keyOf fs p = fs.resolve p := by
    unfold keyOf
    rw [hex]
    simp
  have hkey_not : keyOf fs p ∉ st1.seen := by
    intro hmem
    rcases runIter_seen_from fs l1 ⟨[], []⟩ (keyOf fs p) hmem with h | ⟨q, hq, hkey⟩
    · exact absurd h (List.not_mem_nil _)
    · exact hfirst q hq (by rw [← hkey, hkeyp])
  have hstep : iterStep fs st1 p = { st1 with seen := keyOf fs p :: st1.seen } := by
    unfold iterStep
    rw [herr, hfile, hskip]
    simp [hkey_not]
  have havoid : AvoidKey fs (fs.resolve p) (iterStep fs st1 p) := by
    rw [hstep]
    constructor
    · rw [← hkeyp]
      exact List.mem_cons_self _ _
    · intro q hq hqex
      have hql1 : q ∈ l1 := by
        rcases runIter_out_sub fs l1 ⟨[], []⟩ q hq with h | h
        · exact absurd h (List.not_mem_nil _)
        · exact h
      intro hEq
      apply hfirst q hql1
      unfold keyOf
      rw [hqex]
      simpa using hEq
  have hfinal := runIter_avoid fs (fs.resolve p) l2 _ havoid
  intro q hq hqex
  apply hfinal.2 q _ hqex
  show q ∈ (runIter fs l2 (iterStep fs st1 p)).out
  rw [← hsplit]
  exact hq

/-- Witness for C10: every path resolves to the same file `["R"]` and the
first match sits under the skip directory `logs`, so the later alias of the
same resolved file is suppressed and the enumeration yields nothing. -/
theorem spec_C10_witness :
    iter_files fsRes [[["logs", "a.txt"], ["mods", "b.txt"]]] = [] := by
  have h := spec_C10 fsRes [] [["mods", "b.txt"]] ["logs", "a.txt"]
    [[["logs", "a.txt"], ["mods", "b.txt"]]]
    rfl rfl rfl rfl (by decide)
    (fun q hq => absurd hq (List.not_mem_nil q))
  cases heq : iter_files fsRes [[["logs", "a.txt"], ["mods", "b.txt"]]] with
  | nil => rfl
  | cons x xs =>
    exfalso
    exact h x (by rw [heq]; exact List.mem_cons_self x xs) rfl rfl

lemma suffix_conflict {d : List Char} {s t : String}
    (hs : pyEndsWith d s = true) (ht : pyEndsWith d t = true)
    (hlen : s.data.length ≤ t.data.length) : s.data.isSuffixOf t.data = true := by
  unfold pyEndsWith at hs ht
  rw [List.isSuffixOf_iff_suffix] at hs ht ⊢
  exact List.suffix_of_suffix_length_le hs ht hlen

lemma weight_jar {p : FileRec} (h : pyEndsWith (lowerData p.name) ".jar" = true) :
    weight p = 0 := by
  simp [weight, h]

lemma weight_png {p : FileRec} (h : pyEndsWith (lowerData p.name) ".png" = true) :
    weight p = 3 := by
  have njar : pyEndsWith (lowerData p.name) ".jar" = false := by
    by_contra hc
    rw [Bool.not_eq_false] at hc
    exact absurd (suffix_conflict hc h (by decide)) (by decide)
  have nzip : pyEndsWith (lowerData p.name) ".zip" = false := by
    by_contra hc
    rw [Bool.not_eq_false] at hc
    exact absurd (suffix_conflict hc h (by decide)) (by decide)
  have njson : pyEndsWith (lowerData p.name) ".json" = false := by
    by_contra hc
    rw [Bool.not_eq_false] at hc
    exact absurd (suffix_conflict h hc (by decide)) (by decide)
  have ntoml : pyEndsWith (lowerData p.name) ".toml" = false := by
    by_contra hc
    rw [Bool.not_eq_false] at hc
    exact absurd (suffix_conflict h hc (by decide)) (by decide)
  have ncfg : pyEndsWith (lowerData p.name) ".cfg" = false := by
    by_contra hc
    rw [Bool.not_eq_false] at hc
    exact absurd (suffix_conflict hc h (by decide)) (by decide)
  have nini : pyEndsWith (lowerData p.name) ".ini" = false := by
    by_contra hc
    rw [Bool.not_eq_false] at hc
    exact absurd (suffix_conflict hc h (by decide)) (by decide)
  simp [weight, njar, nzip, njson, ntoml, ncfg, nini, h]

/-- Claim C4: `rank` is the stable sort of the candidate list by the
composite key (file-type class ascending as computed by `weight`, with
classification case-insensitive on the filename suffix; size descending
within a class): the result is a permutation of the input sorted by the key
order `RankLE`, every key-ordered sublist of the input survives in order
(stability), re-ranking an already-ranked list yields the identical
sequence, and every `.jar`-class file precedes every `.png`-class file
regardless of size. -/
theorem spec_C4 (l : List FileRec) :
    (rank l).Perm l
    ∧ (rank l).Pairwise RankLE
    ∧ (∀ c : List FileRec, c.Pairwise RankLE → c.Sublist l → c.Sublist (rank l))
    ∧ rank (rank l) = rank l
    ∧ ∀ i j : Nat, ∀ (hi : i < (rank l).length) (hj : j < (rank l).length),
        pyEndsWith (lowerData ((rank l).get ⟨i, hi⟩).name) ".jar" = true →
        pyEndsWith (lowerData ((rank l).get ⟨j, hj⟩).name) ".png" = true →
        i < j := by
  refine ⟨List.perm_insertionSort _ l, List.sorted_insertionSort _ l, ?_, ?_, ?_⟩
  · exact fun c hp hs => List.sublist_insertionSort hp hs
  · exact (List.sorted_insertionSort RankLE l).insertionSort_eq
  · intro i j hi hj hjar hpng
    have hwi : weight ((rank l).get ⟨i, hi⟩) = 0 := weight_jar hjar
    have hwj : weight ((rank l).get ⟨j, hj⟩) = 3 := weight_png hpng
    by_contra hij
    rcases Nat.lt_or_ge j i with hlt | hge
    · have hrel := List.Sorted.rel_get_of_lt (List.sorted_insertionSort RankLE l)
        (a := ⟨j, hj⟩) (b := ⟨i, hi⟩) hlt
      dsimp only [RankLE] at hrel
      unfold rank at hwi hwj
      omega
    · have hij2 : i = j := by omega
      subst hij2
      have hsame : (⟨i, hi⟩ : Fin (rank l).length) = ⟨i, hj⟩ := rfl
      rw [hsame] at hwi
      omega

/-- Witness for C4 at a concrete list: the small `.jar` (upper-case name)
ends up before the large `.PNG`, and re-ranking is the identity. -/
theorem spec_C4_witness :
    (0 : Nat) < 1 ∧ rank (rank rankW) = rank rankW :=
  ⟨(spec_C4 rankW).2.2.2.2 0 1 (by decide) (by decide) (by decide) (by decide),
   (spec_C4 rankW).2.2.2.1⟩

lemma fileLoop_total_mono (dry : Bool) (budget : Nat) (flag : Nat → Bool) :
    ∀ (files : List FileEntry) (i : Nat) (st : WorkerState),
      st.warmedTotal ≤ (fileLoop dry budget flag files i st).warmedTotal := by
  intro files
  induction files with
  | nil => intro i st; exact Nat.le_refl _
  | cons e rest ih =>
    intro i st
    simp only [fileLoop]
    split
    · exact Nat.le_refl _
    split
    · exact ih (i + 1)
        { st with checks := st.checks + 1,
                  events := st.events ++ [Event.planned i e.size] }
    split
    · exact Nat.le_refl _
    · split
      · rename_i hnle rb hres
        exact Nat.le_trans (Nat.le_add_right _ rb)
          (ih (i + 1)
            { st with checks := st.checks + 1,
                      warmedTotal := st.warmedTotal + rb,
                      warmed := st.warmed + rb,
                      opens := st.opens ++ [st.warmedTotal],
                      events := st.events ++ [Event.warmedFile i rb (st.warmedTotal + rb)] })
      · exact ih (i + 1)
          { st with checks := st.checks + 1,
                    opens := st.opens ++ [st.warmedTotal],
                    events := st.events ++ [Event.fileError i] }

lemma fileLoop_bound (dry : Bool) (budget M : Nat) (flag : Nat → Bool) :
    ∀ (files : List FileEntry) (i : Nat) (st : WorkerState),
      (∀ e ∈ files, ∀ rb, e.result = some rb → rb ≤ M) →
      st.warmedTotal ≤ budget + M →
      (∀ x ∈ st.opens, x < budget) →
      (fileLoop dry budget flag files i st).warmedTotal ≤ budget + M
      ∧ ∀ x ∈ (fileLoop dry budget flag files i st).opens, x < budget := by
  intro files
  induction files with
  | nil => intro i st _ h1 h2; exact ⟨h1, h2⟩
  | cons e rest ih =>
    intro i st hM h1 h2
    simp only [fileLoop]
    split
    · exact ⟨h1, h2⟩
    split
    · exact ih (i + 1) _ (fun f hf rb hrb => hM f (List.mem_cons_of_mem _ hf) rb hrb) h1 h2
    split
    · exact ⟨h1, h2⟩
    · split
      · rename_i hnle rb hres
        refine ih (i + 1) _
          (fun f hf rb2 hrb => hM f (List.mem_cons_of_mem _ hf) rb2 hrb) ?_ ?_
        · show st.warmedTotal + rb ≤ budget + M
          have hrb := hM e (List.mem_cons_self _ _) rb hres
          omega
        · intro x hx
          replace hx : x ∈ st.opens ++ [st.warmedTotal] := hx
          rcases List.mem_append.mp hx with h | h
          · exact h2 x h
          · rw [List.mem_singleton.mp h]
            omega
      · rename_i hnle hres
        refine ih (i + 1) _
          (fun f hf rb2 hrb => hM f (List.mem_cons_of_mem _ hf) rb2 hrb) h1 ?_
        intro x hx
        replace hx : x ∈ st.opens ++ [st.warmedTotal] := hx
        rcases List.mem_append.mp hx with h | h
        · exact h2 x h
        · rw [List.mem_singleton.mp h]
          omega

lemma fileLoop_events_mono (dry : Bool) (budget : Nat) (flag : Nat → Bool) :
    ∀ (files : List FileEntry) (i : Nat) (st : WorkerState) (a : Event),
      a ∈ st.events → a ∈ (fileLoop dry budget flag files i st).events := by
  intro files
  induction files with
  | nil => intro i st a ha; exact ha
  | cons e rest ih =>
    intro i st a ha
    simp only [fileLoop]
    split
    · exact ha
    split
    · exact ih (i + 1) _ a (List.mem_append_left _ ha)
    split
    · exact List.mem_append_left _ ha
    · split
      · exact ih (i + 1) _ a (List.mem_append_left _ ha)
      · exact ih (i + 1) _ a (List.mem_append_left _ ha)

lemma fileLoop_opens_le (dry : Bool) (budget : Nat) (flag : Nat → Bool) (KT : Nat)
    (hflag : ∀ n, KT + 1 ≤ n → flag n = true) :
    ∀ (files : List FileEntry) (i : Nat) (st : WorkerState),
      (fileLoop dry budget flag files i st).opens.length
        ≤ st.opens.length + (KT + 1 - st.checks) := by
  intro files
  induction files with
  | nil => intro i st; exact Nat.le_add_right _ _
  | cons e rest ih =>
    intro i st
    simp only [fileLoop]
    split
    · exact Nat.le_add_right _ _
    · rename_i hf
      have hlt : st.checks < KT + 1 := by
        by_contra hcon
        exact hf (hflag st.checks (by omega))
      split
      · have := ih (i + 1)
          { st with checks := st.checks + 1,
                    events := st.events ++ [Event.planned i e.size] }
        dsimp only at this
        omega
      split
      · dsimp only
        omega
      · split
        · rename_i hnle rb hres
          have := ih (i + 1)
            { st with checks := st.checks + 1,
                      warmedTotal := st.warmedTotal + rb,
                      warmed := st.warmed + rb,
                      opens := st.opens ++ [st.warmedTotal],
                      events := st.events ++ [Event.warmedFile i rb (st.warmedTotal + rb)] }
          dsimp only at this
          simp only [List.length_append, List.length_singleton] at this
          omega
        · rename_i hnle hres
          have := ih (i + 1)
            { st with checks := st.checks + 1,
                      opens := st.opens ++ [st.warmedTotal],
                      events := st.events ++ [Event.fileError i] }
          dsimp only at this
          simp only [List.length_append, List.length_singleton] at this
          omega

lemma targetsLoop_total_mono (dry : Bool) (budget : Nat) (flag : Nat → Bool) :
    ∀ (targets : List (List FileEntry)) (st : WorkerState),
      st.warmedTotal ≤ (targetsLoop dry budget flag targets st).warmedTotal := by
  intro targets
  induction targets with
  | nil => intro st; exact Nat.le_refl _
  | cons files rest ih =>
    intro st
    simp only [targetsLoop]
    split
    · exact Nat.le_refl _
    · refine Nat.le_trans ?_ (ih _)
      exact fileLoop_total_mono dry budget flag files 1
        { st with checks := st.checks + 1, warmed := 0,
                  events := st.events ++ [Event.startTarget] }

lemma targetsLoop_bound (dry : Bool) (budget M : Nat) (flag : Nat → Bool) :
    ∀ (targets : List (List FileEntry)) (st : WorkerState),
      (∀ fl ∈ targets, ∀ e ∈ fl, ∀ rb, e.result = some rb → rb ≤ M) →
      st.warmedTotal ≤ budget + M →
      (∀ x ∈ st.opens, x < budget) →
      (targetsLoop dry budget flag targets st).warmedTotal ≤ budget + M
      ∧ ∀ x ∈ (targetsLoop dry budget flag targets st).opens, x < budget := by
  intro targets
  induction targets with
  | nil => intro st _ h1 h2; exact ⟨h1, h2⟩
  | cons files rest ih =>
    intro st hM h1 h2
    simp only [targetsLoop]
    split
    · exact ⟨h1, h2⟩
    · have hfl := fileLoop_bound dry budget M flag files 1
        { st with checks := st.checks + 1, warmed := 0,
                  events := st.events ++ [Event.startTarget] }
        (hM files (List.mem_cons_self _ _)) h1 h2
      exact ih _ (fun fl hfl2 => hM fl (List.mem_cons_of_mem _ hfl2)) hfl.1 hfl.2

lemma targetsLoop_events_mono (dry : Bool) (budget : Nat) (flag : Nat → Bool) :
    ∀ (targets : List (List FileEntry)) (st : WorkerState) (a : Event),
      a ∈ st.events → a ∈ (targetsLoop dry budget flag targets st).events := by
  intro targets
  induction targets with
  | nil => intro st a ha; exact ha
  | cons files rest ih =>
    intro st a ha
    simp only [targetsLoop]
    split
    · exact ha
    · refine ih _ a ?_
      refine List.mem_append_left _ ?_
      exact fileLoop_events_mono dry budget flag files 1
        { st with checks := st.checks + 1, warmed := 0,
                  events := st.events ++ [Event.startTarget] }
        a (List.mem_append_left _ ha)

lemma fileLoopS_warmError (budget : Nat) (flag : Nat → Bool) (c : FileCand)
    (rest : List FileCand) (i : Nat) (st : WorkerState) (s : Nat)
    (hstat : c.stat = some s) (herr : c.result = none)
    (hflag : flag st.checks = false) (hbudget : st.warmedTotal < budget) :
    fileLoopS false budget flag (c :: rest) i st
      = fileLoopS false budget flag rest (i + 1)
        { st with checks := st.checks + 1,
                  opens := st.opens ++ [st.warmedTotal],
                  events := st.events ++ [Event.fileError i] } := by
  simp only [fileLoopS, hstat, herr, hflag, Bool.false_eq_true, if_false,
    Nat.not_le_of_lt hbudget]

lemma fileLoopS_ok_of_stats (dry : Bool) (budget : Nat) (flag : Nat → Bool) :
    ∀ (files : List FileCand) (i : Nat) (st : WorkerState),
      (∀ c ∈ files, c.stat ≠ none) →
      fileLoopS dry budget flag files i st
        = Except.ok (fileLoop dry budget flag (files.map toEntry) i st) := by
  intro files
  induction files with
  | nil => intro i st _; rfl
  | cons c rest ih =>
    intro i st hstat
    obtain ⟨s, hs⟩ := Option.ne_none_iff_exists'.mp (hstat c (List.mem_cons_self c rest))
    have hrest : ∀ x ∈ rest, x.stat ≠ none :=
      fun x hx => hstat x (List.mem_cons_of_mem c hx)
    have hsize : (toEntry c).size = s := by simp [toEntry, hs]
    have hres : (toEntry c).result = c.result := rfl
    by_cases hf : flag st.checks = true
    · simp [fileLoopS, fileLoop, hf]
    · by_cases hd : dry = true
      · subst hd
        simp only [List.map_cons, fileLoopS, fileLoop, hf, Bool.false_eq_true,
          if_false, hs, if_true, hsize]
        exact ih (i + 1) _ hrest
      · have hd2 : dry = false := by
          revert hd; cases dry <;> simp
        subst hd2
        by_cases hb : budget ≤ st.warmedTotal
        · simp [fileLoopS, fileLoop, hf, hs, hb]
        · cases hr : c.result with
          | some rb =>
            simp only [List.map_cons, fileLoopS, fileLoop, hf, Bool.false_eq_true,
              if_false, hs, hb, hres, hr]
            exact ih (i + 1) _ hrest
          | none =>
            simp only [List.map_cons, fileLoopS, fileLoop, hf, Bool.false_eq_true,
              if_false, hs, hb, hres, hr]
            exact ih (i + 1) _ hrest

lemma targetsLoopS_ok_of_stats (dry : Bool) (budget : Nat) (flag : Nat → Bool) :
    ∀ (targets : List (List FileCand)) (st : WorkerState),
      (∀ fl ∈ targets, ∀ c ∈ fl, c.stat ≠ none) →
      targetsLoopS dry budget flag targets st
        = Except.ok (targetsLoop dry budget flag (targets.map (List.map toEntry)) st) := by
  intro targets
  induction targets with
  | nil => intro st _; rfl
  | cons files rest ih =>
    intro st hstat
    by_cases hf : flag st.checks = true
    · simp [targetsLoopS, targetsLoop, hf]
    · have h1 := fileLoopS_ok_of_stats dry budget flag files 1
        { st with checks := st.checks + 1, warmed := 0,
                  events := st.events ++ [Event.startTarget] }
        (hstat files (List.mem_cons_self files rest))
      simp only [List.map_cons, targetsLoopS, targetsLoop, hf, Bool.false_eq_true,
        if_false, h1]
      exact ih _ (fun fl hfl => hstat fl (List.mem_cons_of_mem files hfl))

/-- When every per-file stat succeeds, the faithful session `workerS` agrees
with the infallible-stat model `worker`: it returns normally and in
particular ends with the end-of-session summary. -/
lemma workerS_ok_of_stats (dry : Bool) (budget : Nat) (flag : Nat → Bool)
    (targets : List (List FileCand)) (st : WorkerState)
    (hstat : ∀ fl ∈ targets, ∀ c ∈ fl, c.stat ≠ none) :
    workerS dry budget flag targets st
      = Except.ok (worker dry budget flag (targets.map (List.map toEntry)) st) := by
  unfold workerS worker
  rw [targetsLoopS_ok_of_stats dry budget flag targets st hstat]

/-- Claim C1 (code bug, at the failing input): `fpath.stat()` at source line
487 runs outside the `try` of line 494 — which guards only `warm_file` —
and the worker-level `try` of line 445 has only a `finally`; so a single
candidate whose stat raises (a file deleted between enumeration and warming)
kills the session. Below, the first candidate's stat fails and the session
dies having logged only the start event: no per-file error event, the
healthy second candidate is never processed (`opens` stays empty, the total
stays 0), and the end-of-session summary is never emitted — contradicting
the claim. Errors raised inside `warm_file` itself are indeed recovered
(`fileLoopS_warmError`), and the summary is reached whenever every stat
succeeds (`workerS_ok_of_stats`). -/
theorem spec_C1_bug :
    workerS false 10 (fun _ => false)
        [[⟨none, none⟩, ⟨some 5, some 5⟩]] initState
      = Except.error ⟨0, 0, [Event.startTarget], [], 2⟩
    ∧ (∀ t, Event.summary t ∉ [Event.startTarget])
    ∧ ∀ j, Event.fileError j ∉ [Event.startTarget] := by
  refine ⟨rfl, ?_, ?_⟩
  · intro t
    simp
  · intro j
    simp

/-- Claim C2: in a non-dry-run session with budget `B`, the cumulative
bytes-warmed total is monotonically non-decreasing (it never drops below any
earlier value, stated as: the remaining run from any state never decreases
it), the budget comparison happens before each file is opened (every entry
of `opens` — the total at the moment `warm_file` is invoked — is strictly
below the budget), and the final total is at most `B` plus the size `M` of
the largest single file read (the one file that may start before the limit
is reached). -/
theorem spec_C2 (budget M : Nat) (flag : Nat → Bool)
    (targets : List (List FileEntry)) (st : WorkerState)
    (hM : ∀ fl ∈ targets, ∀ e ∈ fl, ∀ rb, e.result = some rb → rb ≤ M)
    (hstart : st.warmedTotal ≤ budget + M)
    (hopens : ∀ x ∈ st.opens, x < budget) :
    st.warmedTotal ≤ (worker false budget flag targets st).warmedTotal
    ∧ (∀ x ∈ (worker false budget flag targets st).opens, x < budget)
    ∧ (worker false budget flag targets st).warmedTotal ≤ budget + M := by
  have hb := targetsLoop_bound false budget M flag targets st hM hstart hopens
  exact ⟨targetsLoop_total_mono false budget flag targets st, hb.2, hb.1⟩

/-- Witness for C2 at a concrete single-file session within budget. -/
theorem spec_C2_witness :
    initState.warmedTotal
      ≤ (worker false 4 (fun _ => false) [[⟨3, some 2⟩]] initState).warmedTotal
    ∧ (∀ x ∈ (worker false 4 (fun _ => false) [[⟨3, some 2⟩]] initState).opens, x < 4)
    ∧ (worker false 4 (fun _ => false) [[⟨3, some 2⟩]] initState).warmedTotal ≤ 4 + 2 :=
  spec_C2 4 2 (fun _ => false) [[⟨3, some 2⟩]] initState
    (by
      intro fl hfl e he rb hrb
      simp only [List.mem_singleton] at hfl
      subst hfl
      simp only [List.mem_singleton] at he
      subst he
      simp only [Option.some.injEq] at hrb
      omega)
    (by decide) (by decide)

/-- Claim C5: the cancellation flag is checked once before each file, so if
the flag is durably set after `K` further checks (hypothesis `hflag`: every
check from index `st.checks + K + 1` on reads `true` — the situation after
`K` files of the target completed and cancellation was then requested), at
most `K + 1` more files of that target are opened: the flag read before file
`K + 1` may still miss it, and no file is opened after the next check point. -/
theorem spec_C5 (dry : Bool) (budget : Nat) (flag : Nat → Bool) (K : Nat)
    (files : List FileEntry) (i : Nat) (st : WorkerState)
    (hflag : ∀ n, st.checks + K + 1 ≤ n → flag n = true) :
    (fileLoop dry budget flag files i st).opens.length ≤ st.opens.length + (K + 1) := by
  have h := fileLoop_opens_le dry budget flag (st.checks + K)
    (fun n hn => hflag n (by omega)) files i st
  omega

/-- Witness for C5: the flag becomes visible from the third check on
(`K = 1`), so at most two of the three candidate files are opened. -/
theorem spec_C5_witness :
    (fileLoop false 100 (fun n => decide (2 ≤ n))
        [⟨1, some 1⟩, ⟨1, some 1⟩, ⟨1, some 1⟩] 1 initState).opens.length
      ≤ initState.opens.length + (1 + 1) :=
  spec_C5 false 100 (fun n => decide (2 ≤ n)) 1
    [⟨1, some 1⟩, ⟨1, some 1⟩, ⟨1, some 1⟩] 1 initState
    (fun n hn => by
      simp only [decide_eq_true_eq]
      simp only [initState] at hn
      omega)

lemma fileLoop_budget0 (flag : Nat → Bool) (hflag : ∀ n, flag n = false)
    (e : FileEntry) (es : List FileEntry) (i : Nat) (st : WorkerState) :
    fileLoop false 0 flag (e :: es) i st
      = { st with checks := st.checks + 1,
                  events := st.events ++ [Event.limitHit] } := by
  simp [fileLoop, hflag st.checks]

lemma targetsLoop_budget0 (flag : Nat → Bool) (hflag : ∀ n, flag n = false) :
    ∀ (targets : List (List FileEntry)) (st : WorkerState),
      (targetsLoop false 0 flag targets st).opens = st.opens
      ∧ (targetsLoop false 0 flag targets st).warmedTotal = st.warmedTotal
      ∧ ∀ fl ∈ targets, fl ≠ [] →
          Event.limitHit ∈ (targetsLoop false 0 flag targets st).events := by
  intro targets
  induction targets with
  | nil =>
    intro st
    exact ⟨rfl, rfl, fun fl hfl => absurd hfl (List.not_mem_nil fl)⟩
  | cons files rest ih =>
    intro st
    simp only [targetsLoop, hflag st.checks, Bool.false_eq_true, if_false]
    cases files with
    | nil =>
      simp only [fileLoop]
      obtain ⟨ho, hw, hm⟩ := ih
        { st with checks := st.checks + 1, warmed := 0,
                  events := (st.events ++ [Event.startTarget]) ++ [Event.doneTarget 0] }
      refine ⟨ho, hw, ?_⟩
      intro fl hfl hne
      rcases List.mem_cons.mp hfl with h | h
      · exact absurd h.symm (by simpa using hne)
      · exact hm fl h hne
    | cons e es =>
      rw [fileLoop_budget0 flag hflag]
      obtain ⟨ho, hw, hm⟩ := ih
        { st with checks := st.checks + 1 + 1, warmed := 0,
                  events := ((st.events ++ [Event.startTarget]) ++ [Event.limitHit])
                    ++ [Event.doneTarget 0] }
      refine ⟨ho, hw, ?_⟩
      intro fl hfl hne
      rcases List.mem_cons.mp hfl with h | h
      · refine targetsLoop_events_mono false 0 flag rest _ Event.limitHit ?_
        simp
      · exact hm fl h hne

/-- Claim C6: in a non-dry-run session with a budget of 0 bytes, zero files
are actually read — `warm_file` is never invoked (`opens` stays empty) and
the cumulative total never moves — and a limit-hit event is logged in every
target that has a candidate file; for a session over one nonempty target the
whole log is exactly start, limit-hit (before any file would have been
opened), per-target summary, session summary. -/
theorem spec_C6 (flag : Nat → Bool) (targets : List (List FileEntry))
    (st : WorkerState) (hflag : ∀ n, flag n = false) :
    (worker false 0 flag targets st).opens = st.opens
    ∧ (worker false 0 flag targets st).warmedTotal = st.warmedTotal
    ∧ (∀ fl ∈ targets, fl ≠ [] →
        Event.limitHit ∈ (worker false 0 flag targets st).events)
    ∧ ∀ (e : FileEntry) (es : List FileEntry),
        (worker false 0 flag [e :: es] st).events
          = st.events ++ [Event.startTarget, Event.limitHit, Event.doneTarget 0,
              Event.summary st.warmedTotal] := by
  obtain ⟨ho, hw, hm⟩ := targetsLoop_budget0 flag hflag targets st
  refine ⟨ho, hw, ?_, ?_⟩
  · intro fl hfl hne
    exact List.mem_append_left _ (hm fl hfl hne)
  · intro e es
    simp [worker, targetsLoop, fileLoop_budget0 flag hflag, hflag]

/-- Witness for C6 at a concrete one-file target. -/
theorem spec_C6_witness :
    (worker false 0 (fun _ => false) [[⟨5, some 5⟩]] initState).opens = initState.opens
    ∧ Event.limitHit ∈ (worker false 0 (fun _ => false) [[⟨5, some 5⟩]] initState).events := by
  have h := spec_C6 (fun _ => false) [[⟨5, some 5⟩]] initState (fun _ => rfl)
  exact ⟨h.1, h.2.2.1 [⟨5, some 5⟩] (by simp) (by simp)⟩

lemma fileLoop_dry_frame (budget : Nat) (flag : Nat → Bool) :
    ∀ (files : List FileEntry) (i : Nat) (st : WorkerState),
      (fileLoop true budget flag files i st).warmedTotal = st.warmedTotal
      ∧ (fileLoop true budget flag files i st).opens = st.opens := by
  intro files
  induction files with
  | nil => intro i st; exact ⟨rfl, rfl⟩
  | cons e rest ih =>
    intro i st
    simp only [fileLoop]
    split
    · exact ⟨rfl, rfl⟩
    split
    · exact ih (i + 1)
        { st with checks := st.checks + 1,
                  events := st.events ++ [Event.planned i e.size] }
    · rename_i hdry
      exact absurd trivial hdry

lemma fileLoop_dry_planned (budget : Nat) (flag : Nat → Bool)
    (hflag : ∀ n, flag n = false) :
    ∀ (files : List FileEntry) (i : Nat) (st : WorkerState) (j : Nat)
      (hj : j < files.length),
      Event.planned (i + j) (files.get ⟨j, hj⟩).size
        ∈ (fileLoop true budget flag files i st).events := by
  intro files
  induction files with
  | nil => intro i st j hj; exact absurd hj (by simp)
  | cons e rest ih =>
    intro i st j hj
    simp only [fileLoop, hflag st.checks, Bool.false_eq_true, if_false]
    split
    · cases j with
      | zero =>
        refine fileLoop_events_mono true budget flag rest (i + 1)
          { st with checks := st.checks + 1,
                    events := st.events ++ [Event.planned i e.size] } _ ?_
        simp
      | succ j2 =>
        have hj2 : j2 < rest.length := by simpa using Nat.lt_of_succ_lt_succ hj
        have hr := ih (i + 1)
          { st with checks := st.checks + 1,
                    events := st.events ++ [Event.planned i e.size] }
          j2 hj2
        rw [show i + (j2 + 1) = (i + 1) + j2 by omega]
        exact hr
    · rename_i hdry
      exact absurd trivial hdry

lemma targetsLoop_dry_frame (budget : Nat) (flag : Nat → Bool) :
    ∀ (targets : List (List FileEntry)) (st : WorkerState),
      (targetsLoop true budget flag targets st).warmedTotal = st.warmedTotal
      ∧ (targetsLoop true budget flag targets st).opens = st.opens := by
  intro targets
  induction targets with
  | nil => intro st; exact ⟨rfl, rfl⟩
  | cons files rest ih =>
    intro st
    simp only [targetsLoop]
    split
    · exact ⟨rfl, rfl⟩
    · have hf := fileLoop_dry_frame budget flag files 1
        { st with checks := st.checks + 1, warmed := 0,
                  events := st.events ++ [Event.startTarget] }
      have hi := ih
        { fileLoop true budget flag files 1
            { st with checks := st.checks + 1, warmed := 0,
                      events := st.events ++ [Event.startTarget] } with
          events := (fileLoop true budget flag files 1
              { st with checks := st.checks + 1, warmed := 0,
                        events := st.events ++ [Event.startTarget] }).events
            ++ [Event.doneTarget (fileLoop true budget flag files 1
                { st with checks := st.checks + 1, warmed := 0,
                          events := st.events ++ [Event.startTarget] }).warmed] }
      exact ⟨hi.1.trans hf.1, hi.2.trans hf.2⟩

lemma targetsLoop_dry_planned (budget : Nat) (flag : Nat → Bool)
    (hflag : ∀ n, flag n = false) :
    ∀ (targets : List (List FileEntry)) (st : WorkerState),
      ∀ fl ∈ targets, ∀ (j : Nat) (hj : j < fl.length),
        Event.planned (1 + j) (fl.get ⟨j, hj⟩).size
          ∈ (targetsLoop true budget flag targets st).events := by
  intro targets
  induction targets with
  | nil => intro st fl hfl; exact absurd hfl (List.not_mem_nil fl)
  | cons files rest ih =>
    intro st fl hfl j hj
    simp only [targetsLoop, hflag st.checks, Bool.false_eq_true, if_false]
    rcases List.mem_cons.mp hfl with h | h
    · subst h
      refine targetsLoop_events_mono true budget flag rest _ _ ?_
      exact List.mem_append_left _
        (fileLoop_dry_planned budget flag hflag fl 1 _ j hj)
    · exact ih _ fl h j hj

/-- Claim C7: a dry-run session emits a planned progress event carrying the
(1-based) position and stat size for every enumerated candidate of every
target, never invokes `warm_file` (`opens` is unchanged), and leaves the
cumulative bytes-warmed counter at its initial value. The model is
read-only: no operation of the session writes to any file, matching the
source, which opens files only in binary-read mode. -/
theorem spec_C7 (budget : Nat) (flag : Nat → Bool)
    (targets : List (List FileEntry)) (st : WorkerState)
    (hflag : ∀ n, flag n = false) :
    (worker true budget flag targets st).warmedTotal = st.warmedTotal
    ∧ (worker true budget flag targets st).opens = st.opens
    ∧ ∀ fl ∈ targets, ∀ (j : Nat) (hj : j < fl.length),
        Event.planned (j + 1) (fl.get ⟨j, hj⟩).size
          ∈ (worker true budget flag targets st).events := by
  have hf := targetsLoop_dry_frame budget flag targets st
  refine ⟨hf.1, hf.2, ?_⟩
  intro fl hfl j hj
  have h1 := targetsLoop_dry_planned budget flag hflag targets st fl hfl j hj
  have h2 : Event.planned (1 + j) (fl.get ⟨j, hj⟩).size
      ∈ (worker true budget flag targets st).events := List.mem_append_left _ h1
  simpa [Nat.add_comm] using h2

/-- Witness for C7 at a concrete one-file dry-run session. -/
theorem spec_C7_witness :
    Event.planned 1 7 ∈ (worker true 0 (fun _ => false) [[⟨7, some 42⟩]] initState).events := by
  have h := (spec_C7 0 (fun _ => false) [[⟨7, some 42⟩]] initState (fun _ => rfl)).2.2
    [⟨7, some 42⟩] (by simp) 0 (by simp)
  simpa using h

end MCW
